import Mathlib

/-!
Verification of the semantic extraction and job-matching core of the
esco-skill-extractor repository, as a shallow embedding in Lean 4.

The embedded code comes from:
* `api/core/extractor.py` — `extract_skills` / `extract_occupations`
  (candidate building, threshold, dedup-to-best-match, sort, truncate),
  `_tokenize_text` (dedup / cap stage), `_load_relations`,
  `_load_skill_data`;
* `api/core/cv_intelligence.py` — `_load_esco_relationships`,
  `_find_job_matches`, `_predict_career_opportunities`;
* `api/generate_clean_embeddings.py` — construction of the
  position-aligned label / URL arrays of the embedding index.

Modelling conventions:
* Python floats are modelled as exact rationals (`ℚ`); `round(x, 3)`
  is modelled as rounding to the nearest multiple of 1/1000
  (`round3` below).
* Python dicts are modelled as association lists in insertion order
  (`findA` / `updA`): looking up a key finds its unique binding,
  updating an existing key keeps its position, inserting a new key
  appends at the end — exactly the observable behaviour of a CPython
  dict.
* Python sets are modelled as `Finset String` (cardinalities and
  membership are all the code observes); where the code iterates over
  a set (whose order CPython leaves unspecified) the embedding
  iterates over the deduplicated source list, a fixed deterministic
  representative.  No claim below depends on that iteration order.
* `sorted(..., key=..., reverse=True)` is a stable sort; any stable
  sort computes the same list, so it is modelled by a stable insertion
  sort (`sortByStable`).
* The external embedding model is out of scope (spec §1); the
  similarity matrix it produces enters the embedding as an abstract
  function `sims : ℕ → ℕ → ℚ` (token index → taxonomy index → score),
  and the tokenizer's output as an abstract token list.
-/

/-! ### Generic association list (Python dict) -/

/-- Lookup in an association list: the value bound to the first
occurrence of key `k` (Python `d[k]` / `k in d`). -/
def findA {α β : Type} [DecidableEq α] (k : α) : List (α × β) → Option β
  | [] => none
  | (k', v) :: rest => if k' = k then some v else findA k rest

/-- Update in an association list: replace the binding of `k` in place
if present, otherwise append `(k, v)` at the end — the observable
behaviour of `d[k] = v` on a CPython dict. -/
def updA {α β : Type} [DecidableEq α] (k : α) (v : β) : List (α × β) → List (α × β)
  | [] => [(k, v)]
  | (k', v') :: rest => if k' = k then (k', v) :: rest else (k', v') :: updA k v rest

/-! ### Generic stable sort (Python `sorted`) -/

/-- Insert `x` after every element it does not strictly precede
(`lt x y = true` means `x` must come before `y`). -/
def insertBy {α : Type} (lt : α → α → Bool) (x : α) : List α → List α
  | [] => [x]
  | y :: ys =>
    match lt x y with
    | true => x :: y :: ys
    | false => y :: insertBy lt x ys

/-- Stable insertion sort: elements are taken in list order and each is
placed after all already-placed elements it does not strictly precede,
so elements that compare equal keep their original relative order —
the behaviour Python guarantees for `sorted`. -/
def sortByStable {α : Type} (lt : α → α → Bool) (l : List α) : List α :=
  l.foldl (fun acc x => insertBy lt x acc) []

/-- Pair every element with its position, starting at `n`. -/
def withIdx {α : Type} : List α → ℕ → List (ℕ × α)
  | [], _ => []
  | a :: l, n => (n, a) :: withIdx l (n + 1)

/-! ### Rounding to three decimal places (Python `round(x, 3)`) -/

/-- `round(x, 3)`: the nearest multiple of 1/1000. -/
def round3 (q : ℚ) : ℚ := (round (q * 1000) : ℤ) / 1000

/-! ### Similarity matcher (`extractor.py`, `extract_skills` /
`extract_occupations`)

The taxonomy side of the embedding index is a pair of position-aligned
arrays `labels`, `urls` (of length `numSkills`), and the similarity
matrix of the request is `sims i k` — the dot product of token `i`'s
embedding with taxonomy entry `k`'s embedding. -/

/-- One match-dict value of `extract_skills` (the Python dict
`{'name': …, 'uri': …, 'similarity': …, 'matched_token': …}`). -/
structure MatchRec where
  name : String
  uri : String
  similarity : ℚ
  matched_token : String
deriving DecidableEq, Repr

/-- The abstract inputs of one `extract_skills` (or
`extract_occupations`) call: the position-aligned label/URL arrays of
one taxonomy kind, the token list produced by `_tokenize_text`, the
similarity matrix produced by the external model, the threshold and
the taxonomy size. -/
structure ExtractorData where
  labels : ℕ → String
  urls : ℕ → String
  tokens : List String
  sims : ℕ → ℕ → ℚ
  threshold : ℚ
  numSkills : ℕ

/-- The dict value written for taxonomy entry `k` when token `i` wins:
`{'name': labels[k], 'uri': urls[k], 'similarity': round(sim, 3),
'matched_token': tokens[i]}`. -/
def newRec (E : ExtractorData) (i k : ℕ) : MatchRec :=
  { name := E.labels k
  , uri := E.urls k
  , similarity := round3 (E.sims i k)
  , matched_token := E.tokens.getD i "" }

/-- Effect on entry `k`'s binding of processing token `i` at an index
that passed the threshold filter: first write inserts, a later write
replaces only when the raw similarity strictly exceeds the stored
(rounded) one. -/
def stepCore (E : ExtractorData) (i k : ℕ) (o : Option MatchRec) : Option MatchRec :=
  match o with
  | none => some (newRec E i k)
  | some r => if r.similarity < E.sims i k then some (newRec E i k) else some r

/-- The inner loop body of `extract_skills`: one `(token, skill)` pair
whose similarity passed the threshold updates the match dict. -/
def stepSkill (E : ExtractorData) (i : ℕ) (st : List (ℕ × MatchRec)) (k : ℕ) :
    List (ℕ × MatchRec) :=
  match findA k st with
  | none => updA k (newRec E i k) st
  | some r => if r.similarity < E.sims i k then updA k (newRec E i k) st else st

/-- Processing token `i`: `torch.where(token_similarities > threshold)`
yields the passing taxonomy indices in ascending order, and each
updates the match dict. -/
def processToken (E : ExtractorData) (st : List (ℕ × MatchRec)) (i : ℕ) :
    List (ℕ × MatchRec) :=
  ((List.range E.numSkills).filter (fun k => decide (E.threshold < E.sims i k))).foldl
    (stepSkill E i) st

/-- The `skill_matches` dict after the double loop of `extract_skills`
(lines 192–208 of `extractor.py`), in dict insertion order. -/
def skillMatches (E : ExtractorData) : List (ℕ × MatchRec) :=
  (List.range E.tokens.length).foldl (processToken E) []

/-- `sorted(..., key=lambda x: x['similarity'], reverse=True)`:
`a` strictly precedes `b` iff its similarity is strictly larger. -/
def simLt (a b : MatchRec) : Bool := decide (b.similarity < a.similarity)

/-- `simLt` lifted to position-tagged records (used to state
stability). -/
def simLtIdx (a b : ℕ × MatchRec) : Bool := simLt a.2 b.2

/-- `extract_skills`: build the match dict, sort its values by
similarity descending (stable) and truncate to `max_results`. -/
def extract_skills (E : ExtractorData) (max_results : ℕ) : List MatchRec :=
  (sortByStable simLt ((skillMatches E).map Prod.snd)).take max_results

/-- `extract_occupations` is textually the same algorithm as
`extract_skills`, run over the occupation-side arrays; the data only
enters through `E`. -/
def extract_occupations (E : ExtractorData) (max_results : ℕ) : List MatchRec :=
  extract_skills E max_results

/-- Per-key trace step: what processing token `i` does to entry `k`'s
binding (the threshold test folded in). -/
def updSim (E : ExtractorData) (k : ℕ) (o : Option MatchRec) (i : ℕ) : Option MatchRec :=
  if E.threshold < E.sims i k then stepCore E i k o else o

/-- Entry `k`'s binding after the first `T` tokens, computed key-locally. -/
def traceK (E : ExtractorData) (k T : ℕ) : Option MatchRec :=
  (List.range T).foldl (updSim E k) none

/-- The largest similarity of entry `k` over the tokens `i < T` that
pass the threshold (the threshold itself when none does). -/
def bestSim (E : ExtractorData) (k T : ℕ) : ℚ :=
  ((List.range T).filter (fun i => decide (E.threshold < E.sims i k))).foldl
    (fun m i => max m (E.sims i k)) E.threshold

/-! ### Tokenizer dedup / cap stage (`extractor.py`, `_tokenize_text`
lines 296–304) -/

/-- The `seen`-set loop of `_tokenize_text`: keep the first occurrence
of every phrase, in order. -/
def dedupFirstGo (seen : List String) : List String → List String
  | [] => []
  | x :: xs => if x ∈ seen then dedupFirstGo seen xs else x :: dedupFirstGo (x :: seen) xs

/-- Deduplicate preserving first-seen order (the `seen` set starts
empty). -/
def dedupFirst (l : List String) : List String := dedupFirstGo [] l

/-- The tokenizer's final stage: deduplicate preserving first-seen
order, then `[:100]`. The argument is the raw candidate-phrase list
accumulated by the splitting stages. -/
def capTokens (raw : List String) : List String := (dedupFirst raw).take 100

/-! ### Relationship graph loading (`cv_intelligence.py`,
`_load_esco_relationships`; `extractor.py`, `_load_relations`) -/

/-- `relationType` column of `occupationSkillRelations_en.csv`. -/
inductive RelKind where
  | essential
  | optional
deriving DecidableEq, Repr

/-- One row of `occupationSkillRelations_en.csv`. -/
structure RelRow where
  occupationUri : String
  skillUri : String
  relationType : RelKind
deriving DecidableEq, Repr

/-- The per-occupation value of the relationship dict:
`{'essential': […], 'optional': […]}`. -/
structure OccSkills where
  essential : List String
  optional : List String
deriving DecidableEq, Repr

/-- `occupation_skills[occ_uri][relation_type].append(skill_uri)`. -/
def appendKind (os : OccSkills) (kind : RelKind) (s : String) : OccSkills :=
  match kind with
  | RelKind.essential => { os with essential := os.essential ++ [s] }
  | RelKind.optional => { os with optional := os.optional ++ [s] }

/-- One row of the relationship loader: create the occupation's entry
if absent, then append the skill to the list of the row's kind.  Both
`_load_esco_relationships` and `_load_relations` build the
occupation→skills side exactly this way. -/
def addRelRow (acc : List (String × OccSkills)) (row : RelRow) : List (String × OccSkills) :=
  updA row.occupationUri
    (appendKind ((findA row.occupationUri acc).getD ⟨[], []⟩) row.relationType row.skillUri)
    acc

/-- The loaded occupation→skills dict, rows processed in file order. -/
def load_esco_relationships (rows : List RelRow) : List (String × OccSkills) :=
  rows.foldl addRelRow []

/-- Specification list: the skills of `occ`'s essential rows, in file
order. -/
def essRows (occ : String) (rows : List RelRow) : List String :=
  (rows.filter (fun r => decide (r.occupationUri = occ ∧ r.relationType = RelKind.essential))).map
    RelRow.skillUri

/-- Specification list: the skills of `occ`'s optional rows, in file
order. -/
def optRows (occ : String) (rows : List RelRow) : List String :=
  (rows.filter (fun r => decide (r.occupationUri = occ ∧ r.relationType = RelKind.optional))).map
    RelRow.skillUri

/-! ### Job matcher and career-opportunity predictor
(`cv_intelligence.py`, `_find_job_matches` and
`_predict_career_opportunities`) -/

/-- The fields of a `SkillMatch` that the job matcher and the
opportunity predictor read (`uri`, `name`; `similarity` is carried
along but never branched on; the context/section/category fields are
never read by the embedded functions). -/
structure SkillMatch where
  uri : String
  name : String
  similarity : ℚ
deriving DecidableEq, Repr

/-- The fields of `occupation_data[occ_uri]` that the matcher reads. -/
structure OccData where
  name : String
  isco_group : String
  description : String
deriving DecidableEq, Repr

/-- The `JobMatch` dataclass; the `skill_coverage` dict becomes the two
`cov_*` fields. -/
structure JobMatch where
  uri : String
  name : String
  isco_group : String
  description : String
  match_score : ℚ
  matched_skills : List String
  missing_essential : List String
  missing_optional : List String
  cov_essential : ℚ
  cov_optional : ℚ
deriving DecidableEq, Repr

/-- The `CareerOpportunity` dataclass. -/
structure CareerOpportunity where
  job : JobMatch
  skills_to_gain : List String
  effort_level : String
  category_focus : List String
  estimated_time : String
deriving DecidableEq, Repr

/-- `user_skill_uris = {skill.uri for skill in skill_matches}`. -/
def userSkillURIs (sm : List SkillMatch) : Finset String :=
  (sm.map SkillMatch.uri).toFinset

/-- `essential_coverage = len(essential_match) / len(essential_skills)
if essential_skills else 0`. -/
def essCovQ (sm : List SkillMatch) (oss : OccSkills) : ℚ :=
  if oss.essential.toFinset.card = 0 then 0
  else ((userSkillURIs sm ∩ oss.essential.toFinset).card : ℚ) / (oss.essential.toFinset.card : ℚ)

/-- `optional_coverage = len(optional_match) / len(optional_skills)
if optional_skills else 0`. -/
def optCovQ (sm : List SkillMatch) (oss : OccSkills) : ℚ :=
  if oss.optional.toFinset.card = 0 then 0
  else ((userSkillURIs sm ∩ oss.optional.toFinset).card : ℚ) / (oss.optional.toFinset.card : ℚ)

/-- The names of the missing skills of one kind: iterate over the
distinct skills of the occupation's list (a deterministic
representative of Python's set iteration), keep those the user lacks,
resolve through `skill_data`, silently skipping unknown URIs. -/
def missingNames (skill_data : String → Option String) (sm : List SkillMatch)
    (uris : List String) : List String :=
  (uris.dedup.filter (fun u => decide (u ∉ userSkillURIs sm))).filterMap skill_data

/-- The body of the `for occ_uri, skill_requirements in
self.occupation_skills.items()` loop of `_find_job_matches`: emit a
`JobMatch` when the user holds at least one essential skill. -/
def buildJobMatch (occ_data : String → Option OccData) (skill_data : String → Option String)
    (sm : List SkillMatch) (occ_uri : String) (oss : OccSkills) : Option JobMatch :=
  if 0 < (userSkillURIs sm ∩ oss.essential.toFinset).card then
    some
      { uri := occ_uri
      , name := ((occ_data occ_uri).getD ⟨"Unknown", "", ""⟩).name
      , isco_group := ((occ_data occ_uri).getD ⟨"Unknown", "", ""⟩).isco_group
      , description := ((occ_data occ_uri).getD ⟨"Unknown", "", ""⟩).description
      , match_score := essCovQ sm oss * (7 / 10) + optCovQ sm oss * (3 / 10)
      , matched_skills :=
          (sm.filter (fun s => decide (s.uri ∈
            (userSkillURIs sm ∩ oss.essential.toFinset) ∪
              (userSkillURIs sm ∩ oss.optional.toFinset)))).map SkillMatch.name
      , missing_essential := missingNames skill_data sm oss.essential
      , missing_optional := missingNames skill_data sm oss.optional
      , cov_essential := essCovQ sm oss
      , cov_optional := optCovQ sm oss }
  else none

/-- `sorted(job_matches, key=lambda x: x.match_score, reverse=True)`. -/
def jobLt (a b : JobMatch) : Bool := decide (b.match_score < a.match_score)

/-- `_find_job_matches`: build a `JobMatch` per occupation (dict load
order), keep the ones passing the essential gate, sort by match score
descending. -/
def find_job_matches (occ_skills : List (String × OccSkills))
    (occ_data : String → Option OccData) (skill_data : String → Option String)
    (sm : List SkillMatch) : List JobMatch :=
  sortByStable jobLt (occ_skills.filterMap (fun p => buildJobMatch occ_data skill_data sm p.1 p.2))

/-- `current_coverage = len(essential_match) / len(essential_skills)`
(the essential gate guarantees a nonzero denominator at every use). -/
def currentCoverage (sm : List SkillMatch) (oss : OccSkills) : ℚ :=
  ((userSkillURIs sm ∩ oss.essential.toFinset).card : ℚ) / (oss.essential.toFinset.card : ℚ)

/-- `skills_to_gain`: the missing essential skills resolved to names,
skipping URIs absent from `skill_data`. -/
def skillsToGain (skill_data : String → Option String) (sm : List SkillMatch)
    (oss : OccSkills) : List String :=
  missingNames skill_data sm oss.essential

/-- The loop body of `_predict_career_opportunities`: emit an
opportunity when the user holds at least one essential skill and at
most five are missing; effort and time are banded on the number of
missing essential skills. -/
def buildOpportunity (occ_data : String → Option OccData) (skill_data : String → Option String)
    (skill_categories : String → List String) (sm : List SkillMatch)
    (occ_uri : String) (oss : OccSkills) : Option CareerOpportunity :=
  if 1 ≤ (userSkillURIs sm ∩ oss.essential.toFinset).card ∧
      (oss.essential.toFinset \ userSkillURIs sm).card ≤ 5 then
    some
      { job :=
          { uri := occ_uri
          , name := ((occ_data occ_uri).getD ⟨"Unknown", "", ""⟩).name
          , isco_group := ((occ_data occ_uri).getD ⟨"Unknown", "", ""⟩).isco_group
          , description := ((occ_data occ_uri).getD ⟨"Unknown", "", ""⟩).description
          , match_score := currentCoverage sm oss
          , matched_skills :=
              (sm.filter (fun s => decide (s.uri ∈
                userSkillURIs sm ∩ oss.essential.toFinset))).map SkillMatch.name
          , missing_essential := skillsToGain skill_data sm oss
          , missing_optional := []
          , cov_essential := currentCoverage sm oss
          , cov_optional := 0 }
      , skills_to_gain := skillsToGain skill_data sm oss
      , effort_level :=
          if (oss.essential.toFinset \ userSkillURIs sm).card ≤ 2 then "low"
          else if (oss.essential.toFinset \ userSkillURIs sm).card ≤ 4 then "medium"
          else "high"
      , category_focus :=
          ((oss.essential.dedup.filter (fun u => decide (u ∉ userSkillURIs sm))).flatMap
            skill_categories).dedup
      , estimated_time :=
          if (oss.essential.toFinset \ userSkillURIs sm).card ≤ 2 then "3-6 months"
          else if (oss.essential.toFinset \ userSkillURIs sm).card ≤ 4 then "6-12 months"
          else "1-2 years" }
  else none

/-- `sorted(opportunities, key=lambda x: (len(x.skills_to_gain),
-x.job.match_score))`: ascending count of skills to gain, then
descending score, lexicographically. -/
def oppLt (a b : CareerOpportunity) : Bool :=
  decide (a.skills_to_gain.length < b.skills_to_gain.length) ||
    (decide (a.skills_to_gain.length = b.skills_to_gain.length) &&
      decide (b.job.match_score < a.job.match_score))

/-- `_predict_career_opportunities`. -/
def predict_career_opportunities (occ_skills : List (String × OccSkills))
    (occ_data : String → Option OccData) (skill_data : String → Option String)
    (skill_categories : String → List String) (sm : List SkillMatch) :
    List CareerOpportunity :=
  sortByStable oppLt
    (occ_skills.filterMap (fun p => buildOpportunity occ_data skill_data skill_categories sm p.1 p.2))

/-! ### Skill records and the embedding-index label array
(`extractor.py`, `_load_skill_data`;
`generate_clean_embeddings.py`, skills pass of `main`) -/

/-- The columns of one `skills_en.csv` row that the embedded loaders
read. -/
structure SkillRow where
  conceptUri : String
  preferredLabel : String
deriving DecidableEq, Repr

/-- `_load_skill_data`: `self._skill_data[uri] = {'name':
row['preferredLabel'], …}`, rows in file order, later rows
overwriting earlier ones with the same URI. -/
def load_skill_data (rows : List SkillRow) : List (String × String) :=
  rows.foldl (fun acc r => updA r.conceptUri r.preferredLabel acc) []

/-- The taxonomy store's name lookup: `uri in self._skill_data` plus
`self._skill_data[uri]['name']`. -/
def skillStore (rows : List SkillRow) (uri : String) : Option String :=
  findA uri (load_skill_data rows)

/-- The position-aligned (label, URL) arrays written by
`generate_clean_embeddings.py`: rows whose stripped preferred label is
empty are skipped, the label stored for display is the *stripped*
preferred label, the URL is the concept URI. -/
def embLabels (rows : List SkillRow) : List (String × String) :=
  rows.filterMap (fun r =>
    if r.preferredLabel.trim = "" then none else some (r.preferredLabel.trim, r.conceptUri))

/-! ### Concrete instances used by the closed counterexample and
witness theorems -/

/-- C1 counterexample data: one taxonomy entry, two tokens; token 0
scores 0.8504, token 1 scores 0.8501, threshold 0.5. -/
def cexC1 : ExtractorData :=
  { labels := fun _ => "S0"
  , urls := fun _ => "U0"
  , tokens := ["t0", "t1"]
  , sims := fun i _ => if i = 0 then (8504 : ℚ) / 10000 else (8501 : ℚ) / 10000
  , threshold := 1 / 2
  , numSkills := 1 }

/-- C6 counterexample data: two taxonomy entries, two tokens; token 0
matches only entry 1, token 1 matches only entry 0, both with score
0.7; threshold 0.6. -/
def cexC6 : ExtractorData :=
  { labels := fun k => if k = 0 then "L0" else "L1"
  , urls := fun k => if k = 0 then "U0" else "U1"
  , tokens := ["t0", "t1"]
  , sims := fun i k =>
      if i = 0 then (if k = 0 then 1 / 2 else 7 / 10)
      else (if k = 0 then 7 / 10 else 0)
  , threshold := 3 / 5
  , numSkills := 2 }

/-- C1 witness data: one entry, one token, score 0.75, threshold 0.5. -/
def witC1 : ExtractorData :=
  { labels := fun _ => "A"
  , urls := fun _ => "B"
  , tokens := ["x"]
  , sims := fun _ _ => 3 / 4
  , threshold := 1 / 2
  , numSkills := 1 }

/-- C2 witness data: occupation O1 needs essential S1 (held by the
user); O2 needs essential S9 (not held) but lists the held S1 as
optional, so O2 must be excluded. -/
def occC2 : List (String × OccSkills) :=
  [("O1", ⟨["S1"], []⟩), ("O2", ⟨["S9"], ["S1"]⟩)]

/-- A single matched user skill S1. -/
def smC2 : List SkillMatch := [⟨"S1", "Python", 9 / 10⟩]

/-- C3/C10 witness data: O1 has essential S1, S2 and optional S3. -/
def occC3 : List (String × OccSkills) := [("O1", ⟨["S1", "S2"], ["S3"]⟩)]

/-- The user holds S1 (essential for O1) and S3 (optional for O1). -/
def smC3 : List SkillMatch := [⟨"S1", "n1", 1⟩, ⟨"S3", "n3", 1⟩]

/-- The job match `find_job_matches` emits for `occC3` / `smC3`. -/
def jmC3 : JobMatch :=
  ⟨"O1", "Unknown", "", "", 13 / 20, ["n1", "n3"], [], [], 1 / 2, 1⟩

/-- The opportunity `predict_career_opportunities` emits for `occC3` /
`smC3`: one essential skill missing, optional overlap ignored. -/
def oppC10 : CareerOpportunity :=
  ⟨⟨"O1", "Unknown", "", "", 1 / 2, ["n1"], [], [], 1 / 2, 0⟩, [], "low", [], "3-6 months"⟩

/-- C4 witness data: O1 has six essential skills of which the user
holds exactly one, so five are missing — the boundary of the ≤ 5
inclusion cap. -/
def occC4 : List (String × OccSkills) :=
  [("O1", ⟨["S1", "S2", "S3", "S4", "S5", "S6"], []⟩)]

/-- The user holds only S1. -/
def smC4 : List SkillMatch := [⟨"S1", "n1", 1⟩]

/-- The opportunity emitted for `occC4` / `smC4`: five missing
essential skills, effort "high", time "1-2 years". -/
def oppC4 : CareerOpportunity :=
  ⟨⟨"O1", "Unknown", "", "", 1 / 6, ["n1"], [], [], 1 / 6, 0⟩, [], "high", [], "1-2 years"⟩

/-- C8 counterexample rows: the same (occupation, skill) pair once as
essential and once as optional. -/
def rowsC8 : List RelRow :=
  [⟨"O1", "S1", RelKind.essential⟩, ⟨"O1", "S1", RelKind.optional⟩]

/-- C9 counterexample row: a preferred label padded with whitespace. -/
def rowsC9 : List SkillRow := [⟨"U1", " Python "⟩]

/-- The occupation used by the C9 theorems: O1 needs essential U1. -/
def occC9 : List (String × OccSkills) := [("O1", ⟨["U1"], []⟩)]

/-- The skill match built from `rowsC9`'s embedding-index entry: the
label array holds the stripped preferred label. -/
def smC9 : List SkillMatch := [⟨"U1", "Python", 9 / 10⟩]

/-- C9 witness row: a clean (unpadded) preferred label. -/
def rowsC9w : List SkillRow := [⟨"U1", "Python"⟩]

/-! ## Lemmas: association lists -/

theorem findA_updA_self {α β : Type} [DecidableEq α] (k : α) (v : β) (l : List (α × β)) :
    findA k (updA k v l) = some v := by
  induction l with
  | nil => simp [updA, findA]
  | cons p rest ih =>
    obtain ⟨k1, v1⟩ := p
    by_cases h : k1 = k
    · rw [updA, if_pos h, findA, if_pos h]
    · rw [updA, if_neg h, findA, if_neg h]
      exact ih

theorem findA_updA_ne {α β : Type} [DecidableEq α] {k' k : α} (hne : k' ≠ k) (v : β)
    (l : List (α × β)) : findA k' (updA k v l) = findA k' l := by
  induction l with
  | nil =>
    rw [updA, findA, findA, if_neg (fun h => hne h.symm), findA]
  | cons p rest ih =>
    obtain ⟨k1, v1⟩ := p
    by_cases h : k1 = k
    · have h1 : ¬ k1 = k' := fun hh => hne (hh ▸ h ▸ rfl)
      rw [updA, if_pos h, findA, if_neg h1, findA, if_neg h1]
    · rw [updA, if_neg h, findA, findA, ih]

theorem findA_eq_none {α β : Type} [DecidableEq α] (k : α) (l : List (α × β)) :
    findA k l = none ↔ k ∉ l.map Prod.fst := by
  induction l with
  | nil => simp [findA]
  | cons p rest ih =>
    obtain ⟨k1, v1⟩ := p
    by_cases h : k1 = k
    · subst h
      rw [findA, if_pos rfl]
      simp
    · rw [findA, if_neg h, ih]
      have h' : ¬ k = k1 := fun hh => h hh.symm
      simp [h']

theorem keys_updA {α β : Type} [DecidableEq α] (k : α) (v : β) (l : List (α × β)) :
    (updA k v l).map Prod.fst = l.map Prod.fst ∨
      (updA k v l).map Prod.fst = l.map Prod.fst ++ [k] := by
  induction l with
  | nil => right; simp [updA]
  | cons p rest ih =>
    obtain ⟨k1, v1⟩ := p
    by_cases h : k1 = k
    · left
      rw [updA, if_pos h, List.map_cons, List.map_cons]
    · rcases ih with h1 | h1
      · left
        rw [updA, if_neg h, List.map_cons, List.map_cons, h1]
      · right
        rw [updA, if_neg h, List.map_cons, List.map_cons, h1, List.cons_append]

theorem nodup_keys_updA {α β : Type} [DecidableEq α] (k : α) (v : β) {l : List (α × β)}
    (hl : (l.map Prod.fst).Nodup) : ((updA k v l).map Prod.fst).Nodup := by
  induction l with
  | nil => simp [updA]
  | cons p rest ih =>
    obtain ⟨k1, v1⟩ := p
    rw [List.map_cons, List.nodup_cons] at hl
    by_cases h : k1 = k
    · rw [updA, if_pos h, List.map_cons, List.nodup_cons]
      exact hl
    · rw [updA, if_neg h, List.map_cons, List.nodup_cons]
      refine ⟨fun hmem => ?_, ih hl.2⟩
      rcases keys_updA k v rest with he | he
      · rw [he] at hmem
        exact hl.1 hmem
      · rw [he] at hmem
        rcases List.mem_append.mp hmem with h1 | h1
        · exact hl.1 h1
        · exact h (List.mem_singleton.mp h1)

/-! ## Lemmas: stable sort -/

theorem mem_insertBy {α : Type} (lt : α → α → Bool) (x a : α) (l : List α) :
    a ∈ insertBy lt x l ↔ a = x ∨ a ∈ l := by
  induction l with
  | nil => simp [insertBy]
  | cons y ys ih =>
    cases h : lt x y with
    | true =>
      simp only [insertBy, h, List.mem_cons]
    | false =>
      simp only [insertBy, h, List.mem_cons, ih]
      tauto

theorem mem_sortByStable {α : Type} (lt : α → α → Bool) (l : List α) (a : α) :
    a ∈ sortByStable lt l ↔ a ∈ l := by
  have aux : ∀ (l acc : List α),
      a ∈ l.foldl (fun acc x => insertBy lt x acc) acc ↔ a ∈ acc ∨ a ∈ l := by
    intro l
    induction l with
    | nil => simp
    | cons x xs ih =>
      intro acc
      rw [List.foldl_cons, ih, mem_insertBy]
      simp only [List.mem_cons]
      tauto
  rw [sortByStable, aux]
  simp

theorem pairwise_insertBy {α : Type} {lt : α → α → Bool}
    (hasym : ∀ a b, lt a b = true → lt b a = false)
    (htrans : ∀ a b c, lt a b = true → lt b c = true → lt a c = true)
    (x : α) {l : List α} (hl : l.Pairwise (fun a b => lt b a = false)) :
    (insertBy lt x l).Pairwise (fun a b => lt b a = false) := by
  induction l with
  | nil => simp [insertBy]
  | cons y ys ih =>
    rcases List.pairwise_cons.mp hl with ⟨hy, hys⟩
    cases h : lt x y with
    | true =>
      simp only [insertBy, h]
      refine List.pairwise_cons.mpr ⟨?_, hl⟩
      intro z hz
      rcases List.mem_cons.mp hz with rfl | hz'
      · exact hasym _ _ h
      · cases hzx : lt z x with
        | false => rfl
        | true =>
          have h2 := htrans _ _ _ hzx h
          rw [hy z hz'] at h2
          exact Bool.noConfusion h2
    | false =>
      simp only [insertBy, h]
      refine List.pairwise_cons.mpr ⟨?_, ih hys⟩
      intro z hz
      rcases (mem_insertBy lt x z ys).mp hz with rfl | hz'
      · exact h
      · exact hy z hz'

theorem pairwise_sortByStable {α : Type} {lt : α → α → Bool}
    (hasym : ∀ a b, lt a b = true → lt b a = false)
    (htrans : ∀ a b c, lt a b = true → lt b c = true → lt a c = true)
    (l : List α) : (sortByStable lt l).Pairwise (fun a b => lt b a = false) := by
  have aux : ∀ (l acc : List α), acc.Pairwise (fun a b => lt b a = false) →
      (l.foldl (fun acc x => insertBy lt x acc) acc).Pairwise (fun a b => lt b a = false) := by
    intro l
    induction l with
    | nil => exact fun acc h => h
    | cons x xs ih => exact fun acc h => ih _ (pairwise_insertBy hasym htrans x h)
  exact aux l [] List.Pairwise.nil

theorem pairwise_insertBy_stable {α : Type} {lt : α → α → Bool}
    (hasym : ∀ a b, lt a b = true → lt b a = false)
    (htrans : ∀ a b c, lt a b = true → lt b c = true → lt a c = true)
    (hneg : ∀ a b c, lt a b = true → lt c b = false → lt a c = true)
    (x : ℕ × α) {l : List (ℕ × α)}
    (hidx : ∀ p ∈ l, p.1 < x.1)
    (hl : l.Pairwise (fun a b => lt b.2 a.2 = false ∧ (lt a.2 b.2 = false → a.1 < b.1))) :
    (insertBy (fun a b => lt a.2 b.2) x l).Pairwise
      (fun a b => lt b.2 a.2 = false ∧ (lt a.2 b.2 = false → a.1 < b.1)) := by
  induction l with
  | nil => simp [insertBy]
  | cons y ys ih =>
    rcases List.pairwise_cons.mp hl with ⟨hy, hys⟩
    cases h : lt x.2 y.2 with
    | true =>
      simp only [insertBy, h]
      refine List.pairwise_cons.mpr ⟨?_, hl⟩
      intro z hz
      rcases List.mem_cons.mp hz with rfl | hz'
      · refine ⟨hasym _ _ h, fun hf => ?_⟩
        rw [h] at hf
        exact Bool.noConfusion hf
      · constructor
        · cases hzx : lt z.2 x.2 with
          | false => rfl
          | true =>
            have h2 := htrans _ _ _ hzx h
            rw [(hy z hz').1] at h2
            exact Bool.noConfusion h2
        · intro hf
          have h2 := hneg _ _ _ h (hy z hz').1
          rw [hf] at h2
          exact Bool.noConfusion h2
    | false =>
      simp only [insertBy, h]
      refine List.pairwise_cons.mpr ⟨?_, ih (fun p hp => hidx p (List.mem_cons_of_mem y hp)) hys⟩
      intro z hz
      rcases (mem_insertBy _ x z ys).mp hz with rfl | hz'
      · exact ⟨h, fun _ => hidx y (List.mem_cons_self y ys)⟩
      · exact hy z hz'

theorem mem_insertBy_idx_le {α : Type} (lt : α → α → Bool) (x : ℕ × α) (l : List (ℕ × α))
    (hidx : ∀ p ∈ l, p.1 < x.1) :
    ∀ p ∈ insertBy (fun a b : ℕ × α => lt a.2 b.2) x l, p.1 < x.1 + 1 := by
  intro p hp
  rcases (mem_insertBy _ x p l).mp hp with rfl | hp'
  · omega
  · exact Nat.lt_succ_of_lt (hidx p hp')

theorem pairwise_sortByStable_withIdx {α : Type} {lt : α → α → Bool}
    (hasym : ∀ a b, lt a b = true → lt b a = false)
    (htrans : ∀ a b c, lt a b = true → lt b c = true → lt a c = true)
    (hneg : ∀ a b c, lt a b = true → lt c b = false → lt a c = true)
    (l : List α) :
    (sortByStable (fun a b : ℕ × α => lt a.2 b.2) (withIdx l 0)).Pairwise
      (fun a b => lt b.2 a.2 = false ∧ (lt a.2 b.2 = false → a.1 < b.1)) := by
  have aux : ∀ (l : List α) (n : ℕ) (acc : List (ℕ × α)),
      (∀ p ∈ acc, p.1 < n) →
      acc.Pairwise (fun a b => lt b.2 a.2 = false ∧ (lt a.2 b.2 = false → a.1 < b.1)) →
      ((withIdx l n).foldl (fun acc x => insertBy (fun a b : ℕ × α => lt a.2 b.2) x acc)
          acc).Pairwise
        (fun a b => lt b.2 a.2 = false ∧ (lt a.2 b.2 = false → a.1 < b.1)) := by
    intro l
    induction l with
    | nil => exact fun n acc _ h => h
    | cons a l' ih =>
      intro n acc hacc hp
      rw [withIdx, List.foldl_cons]
      exact ih (n + 1) _ (mem_insertBy_idx_le lt (n, a) acc hacc)
        (pairwise_insertBy_stable hasym htrans hneg (n, a) hacc hp)
  exact aux l 0 [] (by simp) List.Pairwise.nil

theorem withIdx_map_snd {α : Type} (l : List α) (n : ℕ) :
    (withIdx l n).map Prod.snd = l := by
  induction l generalizing n with
  | nil => rfl
  | cons a l ih => rw [withIdx, List.map_cons, ih]

theorem insertBy_map_snd {α : Type} (lt : α → α → Bool) (x : ℕ × α) (l : List (ℕ × α)) :
    (insertBy (fun a b : ℕ × α => lt a.2 b.2) x l).map Prod.snd =
      insertBy lt x.2 (l.map Prod.snd) := by
  induction l with
  | nil => rfl
  | cons y ys ih =>
    cases h : lt x.2 y.2 with
    | true => simp only [insertBy, h, List.map_cons]
    | false =>
      simp only [insertBy, h, List.map_cons] at ih ⊢
      rw [ih]

theorem sortByStable_map_snd {α : Type} (lt : α → α → Bool) (l : List α) :
    (sortByStable (fun a b : ℕ × α => lt a.2 b.2) (withIdx l 0)).map Prod.snd =
      sortByStable lt l := by
  have aux : ∀ (L : List (ℕ × α)) (acc : List (ℕ × α)),
      (L.foldl (fun acc x => insertBy (fun a b : ℕ × α => lt a.2 b.2) x acc) acc).map Prod.snd =
        (L.map Prod.snd).foldl (fun acc x => insertBy lt x acc) (acc.map Prod.snd) := by
    intro L
    induction L with
    | nil => intro acc; rfl
    | cons x xs ih =>
      intro acc
      rw [List.foldl_cons, ih, insertBy_map_snd, List.map_cons, List.foldl_cons]
  rw [sortByStable, sortByStable, aux, withIdx_map_snd]
  rfl

/-! ## Lemmas: fold of max -/

theorem le_foldl_max (f : ℕ → ℚ) (l : List ℕ) (a : ℚ) :
    a ≤ l.foldl (fun m i => max m (f i)) a := by
  induction l generalizing a with
  | nil => exact le_refl a
  | cons x xs ih => exact le_trans (le_max_left a (f x)) (ih (max a (f x)))

theorem foldl_max_ub (f : ℕ → ℚ) (l : List ℕ) {i : ℕ} (hi : i ∈ l) :
    ∀ a : ℚ, f i ≤ l.foldl (fun m j => max m (f j)) a := by
  induction l with
  | nil => cases hi
  | cons x xs ih =>
    intro a
    rcases List.mem_cons.mp hi with rfl | h
    · exact le_trans (le_max_right a (f i)) (le_foldl_max f xs (max a (f i)))
    · exact ih h (max a (f x))

/-! ## Lemmas: rounding -/

theorem round3_mono {x y : ℚ} (h : x ≤ y) : round3 x ≤ round3 y := by
  unfold round3
  have h1 : round (x * 1000) ≤ round (y * 1000) := by
    rw [round_eq, round_eq]
    exact Int.floor_mono (by linarith)
  have h2 : ((round (x * 1000) : ℤ) : ℚ) ≤ ((round (y * 1000) : ℤ) : ℚ) := by
    exact_mod_cast h1
  exact (div_le_div_iff_of_pos_right (by norm_num)).mpr h2

theorem round3_idem (x : ℚ) : round3 (round3 x) = round3 x := by
  unfold round3
  have h : ((round (x * 1000) : ℤ) : ℚ) / 1000 * 1000 = ((round (x * 1000) : ℤ) : ℚ) :=
    div_mul_cancel₀ _ (by norm_num)
  rw [h, round_intCast]

theorem round3_eq_left {m s : ℚ} (h1 : round3 m ≤ s) (h2 : s ≤ m) : round3 s = round3 m :=
  le_antisymm (round3_mono h2) (by have h3 := round3_mono h1; rwa [round3_idem] at h3)

theorem round3_eq_right {m s : ℚ} (h1 : m ≤ s) (h2 : s ≤ round3 m) : round3 s = round3 m :=
  le_antisymm (by have h3 := round3_mono h2; rwa [round3_idem] at h3) (round3_mono h1)

/-! ## Lemmas: the extractor's match dict, key by key -/

theorem findA_stepSkill_self (E : ExtractorData) (i k : ℕ) (st : List (ℕ × MatchRec)) :
    findA k (stepSkill E i st k) = stepCore E i k (findA k st) := by
  cases h : findA k st with
  | none => simp only [stepSkill, stepCore, h, findA_updA_self]
  | some r =>
    by_cases hc : r.similarity < E.sims i k
    · simp only [stepSkill, stepCore, h, if_pos hc, findA_updA_self]
    · simp only [stepSkill, stepCore, h, if_neg hc]

theorem findA_stepSkill_ne (E : ExtractorData) (i : ℕ) {k' k : ℕ} (hne : k' ≠ k)
    (st : List (ℕ × MatchRec)) : findA k' (stepSkill E i st k) = findA k' st := by
  cases h : findA k st with
  | none =>
    simp only [stepSkill, h]
    exact findA_updA_ne hne _ st
  | some r =>
    by_cases hc : r.similarity < E.sims i k
    · simp only [stepSkill, h, if_pos hc]
      exact findA_updA_ne hne _ st
    · simp only [stepSkill, h, if_neg hc]

theorem findA_foldl_stepSkill (E : ExtractorData) (i k : ℕ) :
    ∀ L : List ℕ, L.Nodup → ∀ st,
      findA k (L.foldl (stepSkill E i) st) =
        if k ∈ L then stepCore E i k (findA k st) else findA k st := by
  intro L
  induction L with
  | nil => intro _ st; simp
  | cons a L' ih =>
    intro hnd st
    rw [List.nodup_cons] at hnd
    rw [List.foldl_cons]
    by_cases hak : a = k
    · subst hak
      rw [ih hnd.2, if_neg hnd.1, findA_stepSkill_self, if_pos (List.mem_cons_self a L')]
    · have hka : k ≠ a := fun h => hak h.symm
      by_cases hk : k ∈ L'
      · rw [ih hnd.2, if_pos hk, if_pos (List.mem_cons_of_mem a hk),
          findA_stepSkill_ne E i hka st]
      · rw [ih hnd.2, if_neg hk, findA_stepSkill_ne E i hka st, if_neg]
        intro hmem
        rcases List.mem_cons.mp hmem with h1 | h1
        · exact hka h1
        · exact hk h1

theorem findA_processToken (E : ExtractorData) {k : ℕ} (hk : k < E.numSkills) (i : ℕ)
    (st : List (ℕ × MatchRec)) :
    findA k (processToken E st i) = updSim E k (findA k st) i := by
  simp only [processToken]
  rw [findA_foldl_stepSkill E i k _ ((List.nodup_range E.numSkills).filter _) st, updSim]
  by_cases hc : E.threshold < E.sims i k
  · rw [if_pos hc, if_pos]
    exact List.mem_filter.mpr ⟨List.mem_range.mpr hk, by simp [hc]⟩
  · rw [if_neg hc, if_neg]
    intro hmem
    exact hc (of_decide_eq_true (List.mem_filter.mp hmem).2)

theorem findA_skillMatches (E : ExtractorData) {k : ℕ} (hk : k < E.numSkills) :
    findA k (skillMatches E) = traceK E k E.tokens.length := by
  have aux : ∀ (n : ℕ) (st : List (ℕ × MatchRec)),
      findA k ((List.range n).foldl (processToken E) st) =
        (List.range n).foldl (updSim E k) (findA k st) := by
    intro n
    induction n with
    | zero => intro st; rfl
    | succ n ih =>
      intro st
      rw [List.range_succ, List.foldl_append, List.foldl_append]
      simp only [List.foldl_cons, List.foldl_nil]
      rw [findA_processToken E hk, ih]
  simp only [skillMatches, traceK]
  rw [aux E.tokens.length []]
  rfl

theorem nodup_keys_stepSkill (E : ExtractorData) (i k : ℕ) {st : List (ℕ × MatchRec)}
    (h : (st.map Prod.fst).Nodup) : ((stepSkill E i st k).map Prod.fst).Nodup := by
  cases hf : findA k st with
  | none =>
    simp only [stepSkill, hf]
    exact nodup_keys_updA _ _ h
  | some r =>
    by_cases hc : r.similarity < E.sims i k
    · simp only [stepSkill, hf, if_pos hc]
      exact nodup_keys_updA _ _ h
    · simp only [stepSkill, hf, if_neg hc]
      exact h

theorem nodup_keys_skillMatches (E : ExtractorData) :
    ((skillMatches E).map Prod.fst).Nodup := by
  have aux1 : ∀ (L : List ℕ) (i : ℕ) (st : List (ℕ × MatchRec)), (st.map Prod.fst).Nodup →
      ((L.foldl (stepSkill E i) st).map Prod.fst).Nodup := by
    intro L
    induction L with
    | nil => exact fun _ _ h => h
    | cons a L' ih => exact fun i st h => ih i _ (nodup_keys_stepSkill E i a h)
  have aux2 : ∀ (n : ℕ) (st : List (ℕ × MatchRec)), (st.map Prod.fst).Nodup →
      (((List.range n).foldl (processToken E) st).map Prod.fst).Nodup := by
    intro n
    induction n with
    | zero => exact fun _ h => h
    | succ n ih =>
      intro st h
      rw [List.range_succ, List.foldl_append]
      simp only [List.foldl_cons, List.foldl_nil]
      exact aux1 _ _ _ (ih st h)
  exact aux2 E.tokens.length [] (by simp)

theorem traceK_succ (E : ExtractorData) (k T : ℕ) :
    traceK E k (T + 1) = updSim E k (traceK E k T) T := by
  simp only [traceK, List.range_succ, List.foldl_append, List.foldl_cons, List.foldl_nil]

theorem bestSim_succ (E : ExtractorData) (k T : ℕ) :
    bestSim E k (T + 1) =
      if E.threshold < E.sims T k then max (bestSim E k T) (E.sims T k)
      else bestSim E k T := by
  simp only [bestSim, List.range_succ, List.filter_append, List.foldl_append]
  by_cases hc : E.threshold < E.sims T k
  · simp [hc]
  · simp [hc]

theorem bestSim_ub (E : ExtractorData) (k T : ℕ) :
    ∀ i < T, E.threshold < E.sims i k → E.sims i k ≤ bestSim E k T := by
  intro i hi hcond
  exact foldl_max_ub (fun j => E.sims j k) _
    (List.mem_filter.mpr ⟨List.mem_range.mpr hi, by simp [hcond]⟩) E.threshold

theorem bestSim_empty (E : ExtractorData) (k T : ℕ)
    (h : ∀ i < T, ¬ E.threshold < E.sims i k) : bestSim E k T = E.threshold := by
  have hf : (List.range T).filter (fun i => decide (E.threshold < E.sims i k)) = [] := by
    rw [List.filter_eq_nil_iff]
    intro a ha
    simp [h a (List.mem_range.mp ha)]
  simp [bestSim, hf]

theorem stepCore_ne_none (E : ExtractorData) (i k : ℕ) (o : Option MatchRec) :
    stepCore E i k o ≠ none := by
  cases o with
  | none => simp [stepCore]
  | some r =>
    by_cases hc : r.similarity < E.sims i k
    · simp [stepCore, hc]
    · simp [stepCore, hc]

theorem traceK_eq_none_iff (E : ExtractorData) (k : ℕ) :
    ∀ T, traceK E k T = none ↔ ∀ i < T, ¬ E.threshold < E.sims i k := by
  intro T
  induction T with
  | zero => simp [traceK]
  | succ T ih =>
    rw [traceK_succ, updSim]
    by_cases hc : E.threshold < E.sims T k
    · rw [if_pos hc]
      constructor
      · exact fun h => absurd h (stepCore_ne_none E T k _)
      · intro hall
        exact absurd hc (hall T (Nat.lt_succ_self T))
    · rw [if_neg hc, ih]
      constructor
      · intro hall i hi
        rcases Nat.lt_succ_iff_lt_or_eq.mp hi with h1 | rfl
        · exact hall i h1
        · exact hc
      · intro hall i hi
        exact hall i (Nat.lt_succ_of_lt hi)

theorem traceK_some_spec (E : ExtractorData) (k : ℕ) :
    ∀ T r, traceK E k T = some r →
      r.name = E.labels k ∧ r.uri = E.urls k ∧
      r.similarity = round3 (bestSim E k T) ∧
      ∃ i, i < T ∧ E.threshold < E.sims i k ∧
        r.matched_token = E.tokens.getD i "" ∧
        round3 (E.sims i k) = round3 (bestSim E k T) := by
  intro T
  induction T with
  | zero =>
    intro r h
    simp [traceK] at h
  | succ T ih =>
    intro r h
    rw [traceK_succ, updSim] at h
    by_cases hc : E.threshold < E.sims T k
    · rw [if_pos hc] at h
      rw [bestSim_succ, if_pos hc]
      cases htr : traceK E k T with
      | none =>
        rw [htr] at h
        simp only [stepCore] at h
        have hr : r = newRec E T k := (Option.some.inj h).symm
        have hbt : bestSim E k T = E.threshold :=
          bestSim_empty E k T ((traceK_eq_none_iff E k T).mp htr)
        have hmax : max (bestSim E k T) (E.sims T k) = E.sims T k := by
          rw [hbt]
          exact max_eq_right (le_of_lt hc)
        subst hr
        refine ⟨rfl, rfl, ?_, T, Nat.lt_succ_self T, hc, rfl, ?_⟩
        · rw [hmax]
          rfl
        · rw [hmax]
      | some r0 =>
        rw [htr] at h
        simp only [stepCore] at h
        rcases ih r0 htr with ⟨hn, hu, hs, i0, hi0, hc0, htok, hrd⟩
        by_cases hrep : r0.similarity < E.sims T k
        · rw [if_pos hrep] at h
          have hr : r = newRec E T k := (Option.some.inj h).symm
          have hround : round3 (E.sims T k) = round3 (max (bestSim E k T) (E.sims T k)) := by
            rcases le_total (bestSim E k T) (E.sims T k) with hle | hle
            · rw [max_eq_right hle]
            · rw [max_eq_left hle]
              exact round3_eq_left (by rw [← hs]; exact le_of_lt hrep) hle
          subst hr
          exact ⟨rfl, rfl, hround, T, Nat.lt_succ_self T, hc, rfl, hround⟩
        · rw [if_neg hrep] at h
          have hr : r = r0 := (Option.some.inj h).symm
          have hsle : E.sims T k ≤ round3 (bestSim E k T) := by
            rw [← hs]
            exact le_of_not_lt hrep
          have hround : round3 (max (bestSim E k T) (E.sims T k)) = round3 (bestSim E k T) := by
            rcases le_total (E.sims T k) (bestSim E k T) with hle | hle
            · rw [max_eq_left hle]
            · rw [max_eq_right hle]
              exact round3_eq_right hle hsle
          subst hr
          exact ⟨hn, hu, by rw [hs, hround], i0, Nat.lt_succ_of_lt hi0, hc0, htok,
            by rw [hrd, hround]⟩
    · rw [if_neg hc] at h
      rw [bestSim_succ, if_neg hc]
      rcases ih r h with ⟨hn, hu, hs, i0, hi0, hc0, htok, hrd⟩
      exact ⟨hn, hu, hs, i0, Nat.lt_succ_of_lt hi0, hc0, htok, hrd⟩

/-! ## Lemmas: tokenizer dedup / cap -/

theorem dedupFirstGo_nodup : ∀ (l seen : List String),
    (dedupFirstGo seen l).Nodup ∧ ∀ x ∈ dedupFirstGo seen l, x ∉ seen := by
  intro l
  induction l with
  | nil => exact fun seen => ⟨List.nodup_nil, by simp [dedupFirstGo]⟩
  | cons x xs ih =>
    intro seen
    by_cases h : x ∈ seen
    · simp only [dedupFirstGo, if_pos h]
      exact ih seen
    · simp only [dedupFirstGo, if_neg h]
      rcases ih (x :: seen) with ⟨hnd, hmem⟩
      constructor
      · rw [List.nodup_cons]
        exact ⟨fun hx => (hmem x hx) (List.mem_cons_self x seen), hnd⟩
      · intro y hy
        rcases List.mem_cons.mp hy with rfl | hy'
        · exact h
        · exact fun hyseen => (hmem y hy') (List.mem_cons_of_mem x hyseen)

theorem dedupFirstGo_sublist : ∀ (l seen : List String), List.Sublist (dedupFirstGo seen l) l := by
  intro l
  induction l with
  | nil => intro seen; simp [dedupFirstGo]
  | cons x xs ih =>
    intro seen
    by_cases h : x ∈ seen
    · simp only [dedupFirstGo, if_pos h]
      exact (ih seen).cons x
    · simp only [dedupFirstGo, if_neg h]
      exact (ih (x :: seen)).cons₂ x

theorem mem_dedupFirstGo : ∀ (l seen : List String) (x : String),
    x ∈ dedupFirstGo seen l ↔ x ∈ l ∧ x ∉ seen := by
  intro l
  induction l with
  | nil => intro seen x; simp [dedupFirstGo]
  | cons y ys ih =>
    intro seen x
    by_cases h : y ∈ seen
    · rw [dedupFirstGo, if_pos h, ih seen x]
      constructor
      · rintro ⟨h1, h2⟩
        exact ⟨List.mem_cons_of_mem y h1, h2⟩
      · rintro ⟨h1, h2⟩
        rcases List.mem_cons.mp h1 with rfl | h1'
        · exact absurd h h2
        · exact ⟨h1', h2⟩
    · rw [dedupFirstGo, if_neg h]
      constructor
      · intro hx
        rcases List.mem_cons.mp hx with rfl | hx'
        · exact ⟨List.mem_cons_self x ys, h⟩
        · rcases (ih (y :: seen) x).mp hx' with ⟨h1, h2⟩
          exact ⟨List.mem_cons_of_mem y h1, fun hs => h2 (List.mem_cons_of_mem y hs)⟩
      · rintro ⟨h1, h2⟩
        rcases List.mem_cons.mp h1 with rfl | h1'
        · exact List.mem_cons_self x _
        · by_cases hxy : x = y
          · subst hxy
            exact List.mem_cons_self x _
          · refine List.mem_cons_of_mem y ((ih (y :: seen) x).mpr ⟨h1', fun hs => ?_⟩)
            rcases List.mem_cons.mp hs with h3 | h3
            · exact hxy h3
            · exact h2 h3

/-! ## Lemmas: relationship loader -/

theorem findA_addRelRow_ne {occ : String} {r : RelRow} (hne : r.occupationUri ≠ occ)
    (acc : List (String × OccSkills)) : findA occ (addRelRow acc r) = findA occ acc := by
  rw [addRelRow]
  exact findA_updA_ne (fun h => hne h.symm) _ acc

theorem findA_addRelRow_self {occ : String} {r : RelRow} (heq : r.occupationUri = occ)
    (acc : List (String × OccSkills)) :
    findA occ (addRelRow acc r) =
      some (appendKind ((findA occ acc).getD ⟨[], []⟩) r.relationType r.skillUri) := by
  rw [addRelRow, heq, findA_updA_self]

theorem essRows_cons_self {occ : String} {r : RelRow} (heq : r.occupationUri = occ)
    (rest : List RelRow) :
    essRows occ (r :: rest) =
      (if r.relationType = RelKind.essential then [r.skillUri] else []) ++ essRows occ rest := by
  cases hk : r.relationType with
  | essential => simp [essRows, List.filter_cons, heq, hk]
  | optional => simp [essRows, List.filter_cons, heq, hk]

theorem optRows_cons_self {occ : String} {r : RelRow} (heq : r.occupationUri = occ)
    (rest : List RelRow) :
    optRows occ (r :: rest) =
      (if r.relationType = RelKind.optional then [r.skillUri] else []) ++ optRows occ rest := by
  cases hk : r.relationType with
  | essential => simp [optRows, List.filter_cons, heq, hk]
  | optional => simp [optRows, List.filter_cons, heq, hk]

theorem essRows_cons_ne {occ : String} {r : RelRow} (hne : r.occupationUri ≠ occ)
    (rest : List RelRow) : essRows occ (r :: rest) = essRows occ rest := by
  simp [essRows, List.filter_cons, hne]

theorem optRows_cons_ne {occ : String} {r : RelRow} (hne : r.occupationUri ≠ occ)
    (rest : List RelRow) : optRows occ (r :: rest) = optRows occ rest := by
  simp [optRows, List.filter_cons, hne]

theorem findA_load_fold (rows : List RelRow) :
    ∀ (acc : List (String × OccSkills)) (occ : String),
      findA occ (rows.foldl addRelRow acc) =
        match findA occ acc with
        | some os => some ⟨os.essential ++ essRows occ rows, os.optional ++ optRows occ rows⟩
        | none =>
          if rows.any (fun r => decide (r.occupationUri = occ)) then
            some ⟨essRows occ rows, optRows occ rows⟩
          else none := by
  induction rows with
  | nil =>
    intro acc occ
    cases h : findA occ acc with
    | some os => simp [h, essRows, optRows]
    | none => simp [h]
  | cons r rest ih =>
    intro acc occ
    rw [List.foldl_cons, ih (addRelRow acc r) occ]
    by_cases hocc : r.occupationUri = occ
    · rw [findA_addRelRow_self hocc, essRows_cons_self hocc, optRows_cons_self hocc]
      have hany : (r :: rest).any (fun r => decide (r.occupationUri = occ)) = true := by
        simp [List.any_cons, hocc]
      rw [hany]
      cases hfa : findA occ acc with
      | some os =>
        cases hk : r.relationType with
        | essential => simp [hfa, appendKind, hk, List.append_assoc]
        | optional => simp [hfa, appendKind, hk, List.append_assoc]
      | none =>
        cases hk : r.relationType with
        | essential => simp [hfa, appendKind, hk]
        | optional => simp [hfa, appendKind, hk]
    · rw [findA_addRelRow_ne hocc, essRows_cons_ne hocc, optRows_cons_ne hocc]
      cases hfa : findA occ acc with
      | some os => simp [hfa]
      | none =>
        have hany : ((r :: rest).any (fun r => decide (r.occupationUri = occ))) =
            (rest.any (fun r => decide (r.occupationUri = occ))) := by
          simp [List.any_cons, hocc]
        rw [hany]

/-! ## Lemmas: skill store and embedding labels -/

theorem findA_load_skill_data (rows : List SkillRow) :
    ∀ (acc : List (String × String)) (k : String),
      findA k (rows.foldl (fun acc r => updA r.conceptUri r.preferredLabel acc) acc) =
        rows.foldl (fun o r => if r.conceptUri = k then some r.preferredLabel else o)
          (findA k acc) := by
  induction rows with
  | nil => intro acc k; rfl
  | cons r rest ih =>
    intro acc k
    rw [List.foldl_cons, List.foldl_cons, ih]
    congr 1
    by_cases h : r.conceptUri = k
    · rw [if_pos h, h, findA_updA_self]
    · rw [if_neg h, findA_updA_ne (fun hh => h hh.symm)]

theorem foldl_lastAssign_const (rest : List SkillRow) (k : String)
    (h : ∀ row ∈ rest, row.conceptUri ≠ k) :
    ∀ o : Option String,
      rest.foldl (fun o row => if row.conceptUri = k then some row.preferredLabel else o) o = o := by
  induction rest with
  | nil => intro o; rfl
  | cons x rest ih =>
    intro o
    rw [List.foldl_cons, if_neg (h x (List.mem_cons_self x rest))]
    exact ih (fun row hrow => h row (List.mem_cons_of_mem x hrow)) o

theorem lastAssign_of_mem : ∀ (rows : List SkillRow),
    (rows.map SkillRow.conceptUri).Nodup → ∀ {r : SkillRow}, r ∈ rows →
    ∀ o : Option String,
      rows.foldl (fun o row => if row.conceptUri = r.conceptUri then some row.preferredLabel
        else o) o = some r.preferredLabel := by
  intro rows
  induction rows with
  | nil => intro _ r hr; cases hr
  | cons x rest ih =>
    intro hnd r hr o
    rw [List.map_cons, List.nodup_cons] at hnd
    rw [List.foldl_cons]
    rcases List.mem_cons.mp hr with rfl | hr'
    · rw [if_pos rfl]
      refine foldl_lastAssign_const rest _ (fun row hrow heq => ?_) _
      exact hnd.1 (heq ▸ List.mem_map_of_mem SkillRow.conceptUri hrow)
    · have hne : x.conceptUri ≠ r.conceptUri :=
        fun heq => hnd.1 (heq ▸ List.mem_map_of_mem SkillRow.conceptUri hr')
      rw [if_neg hne]
      exact ih hnd.2 hr' _

theorem skillStore_of_clean (rows : List SkillRow)
    (hclean : ∀ r ∈ rows, r.preferredLabel.trim = r.preferredLabel)
    (hnd : (rows.map SkillRow.conceptUri).Nodup) {s : SkillMatch}
    (hs : ∃ p ∈ embLabels rows, s.name = p.1 ∧ s.uri = p.2) :
    skillStore rows s.uri = some s.name := by
  rcases hs with ⟨p, hp, hname, huri⟩
  rcases List.mem_filterMap.mp hp with ⟨r, hr, hfr⟩
  by_cases hemp : r.preferredLabel.trim = ""
  · rw [if_pos hemp] at hfr
    exact Option.noConfusion hfr
  · rw [if_neg hemp] at hfr
    have hp2 : p = (r.preferredLabel.trim, r.conceptUri) := (Option.some.inj hfr).symm
    subst hp2
    rw [huri, hname]
    simp only [skillStore, load_skill_data]
    rw [findA_load_skill_data rows [] r.conceptUri, hclean r hr]
    exact lastAssign_of_mem rows hnd hr _

/-! ## Lemmas: comparison relations used by the sorts -/

theorem simLt_asym (a b : MatchRec) (h : simLt a b = true) : simLt b a = false := by
  rw [simLt, decide_eq_true_eq] at h
  rw [simLt, decide_eq_false_iff_not]
  exact lt_asymm h

theorem simLt_trans (a b c : MatchRec) (h1 : simLt a b = true) (h2 : simLt b c = true) :
    simLt a c = true := by
  rw [simLt, decide_eq_true_eq] at h1 h2 ⊢
  exact lt_trans h2 h1

theorem simLt_neg (a b c : MatchRec) (h1 : simLt a b = true) (h2 : simLt c b = false) :
    simLt a c = true := by
  rw [simLt, decide_eq_true_eq] at h1 ⊢
  rw [simLt, decide_eq_false_iff_not] at h2
  exact lt_of_le_of_lt (le_of_not_lt h2) h1

theorem jobLt_asym (a b : JobMatch) (h : jobLt a b = true) : jobLt b a = false := by
  rw [jobLt, decide_eq_true_eq] at h
  rw [jobLt, decide_eq_false_iff_not]
  exact lt_asymm h

theorem jobLt_trans (a b c : JobMatch) (h1 : jobLt a b = true) (h2 : jobLt b c = true) :
    jobLt a c = true := by
  rw [jobLt, decide_eq_true_eq] at h1 h2 ⊢
  exact lt_trans h2 h1

theorem oppLt_iff (a b : CareerOpportunity) :
    oppLt a b = true ↔
      (a.skills_to_gain.length < b.skills_to_gain.length ∨
        (a.skills_to_gain.length = b.skills_to_gain.length ∧
          b.job.match_score < a.job.match_score)) := by
  simp [oppLt, Bool.or_eq_true, Bool.and_eq_true, decide_eq_true_eq]

theorem oppLt_asym (a b : CareerOpportunity) (h : oppLt a b = true) : oppLt b a = false := by
  rw [oppLt_iff] at h
  rw [Bool.eq_false_iff]
  intro h2
  rw [oppLt_iff] at h2
  rcases h with h | ⟨he, hs⟩ <;> rcases h2 with h2 | ⟨he2, hs2⟩
  · omega
  · omega
  · omega
  · exact absurd (lt_trans hs hs2) (lt_irrefl _)

theorem oppLt_trans (a b c : CareerOpportunity) (h1 : oppLt a b = true)
    (h2 : oppLt b c = true) : oppLt a c = true := by
  rw [oppLt_iff] at h1 h2 ⊢
  rcases h1 with h1 | ⟨he1, hs1⟩ <;> rcases h2 with h2 | ⟨he2, hs2⟩
  · exact Or.inl (lt_trans h1 h2)
  · exact Or.inl (by omega)
  · exact Or.inl (by omega)
  · exact Or.inr ⟨by omega, lt_trans hs2 hs1⟩

/-! ## Lemmas: job matcher and opportunity predictor -/

theorem mem_find_job_matches {occ_skills : List (String × OccSkills)}
    {occ_data : String → Option OccData} {skill_data : String → Option String}
    {sm : List SkillMatch} {j : JobMatch} :
    j ∈ find_job_matches occ_skills occ_data skill_data sm ↔
      ∃ p ∈ occ_skills, buildJobMatch occ_data skill_data sm p.1 p.2 = some j := by
  rw [find_job_matches, mem_sortByStable, List.mem_filterMap]

theorem mem_predict_career_opportunities {occ_skills : List (String × OccSkills)}
    {occ_data : String → Option OccData} {skill_data : String → Option String}
    {skill_categories : String → List String} {sm : List SkillMatch} {o : CareerOpportunity} :
    o ∈ predict_career_opportunities occ_skills occ_data skill_data skill_categories sm ↔
      ∃ p ∈ occ_skills,
        buildOpportunity occ_data skill_data skill_categories sm p.1 p.2 = some o := by
  rw [predict_career_opportunities, mem_sortByStable, List.mem_filterMap]

theorem buildJobMatch_inv {occ_data : String → Option OccData}
    {skill_data : String → Option String} {sm : List SkillMatch} {occ_uri : String}
    {oss : OccSkills} {j : JobMatch}
    (h : buildJobMatch occ_data skill_data sm occ_uri oss = some j) :
    0 < (userSkillURIs sm ∩ oss.essential.toFinset).card ∧
    j.uri = occ_uri ∧
    j.match_score = essCovQ sm oss * (7 / 10) + optCovQ sm oss * (3 / 10) ∧
    j.matched_skills = (sm.filter (fun s => decide (s.uri ∈
        (userSkillURIs sm ∩ oss.essential.toFinset) ∪
          (userSkillURIs sm ∩ oss.optional.toFinset)))).map SkillMatch.name ∧
    j.missing_optional = missingNames skill_data sm oss.optional ∧
    j.cov_essential = essCovQ sm oss ∧ j.cov_optional = optCovQ sm oss := by
  simp only [buildJobMatch] at h
  by_cases hc : 0 < (userSkillURIs sm ∩ oss.essential.toFinset).card
  · rw [if_pos hc] at h
    have hj := (Option.some.inj h).symm
    subst hj
    exact ⟨hc, rfl, rfl, rfl, rfl, rfl, rfl⟩
  · rw [if_neg hc] at h
    exact absurd h (by simp)

theorem buildOpportunity_inv {occ_data : String → Option OccData}
    {skill_data : String → Option String} {skill_categories : String → List String}
    {sm : List SkillMatch} {occ_uri : String} {oss : OccSkills} {o : CareerOpportunity}
    (h : buildOpportunity occ_data skill_data skill_categories sm occ_uri oss = some o) :
    (1 ≤ (userSkillURIs sm ∩ oss.essential.toFinset).card ∧
      (oss.essential.toFinset \ userSkillURIs sm).card ≤ 5) ∧
    o.job.uri = occ_uri ∧
    o.job.match_score = currentCoverage sm oss ∧
    o.job.missing_optional = [] ∧
    o.job.cov_essential = currentCoverage sm oss ∧
    o.job.cov_optional = 0 ∧
    o.skills_to_gain = skillsToGain skill_data sm oss ∧
    o.effort_level = (if (oss.essential.toFinset \ userSkillURIs sm).card ≤ 2 then "low"
      else if (oss.essential.toFinset \ userSkillURIs sm).card ≤ 4 then "medium" else "high") ∧
    o.estimated_time = (if (oss.essential.toFinset \ userSkillURIs sm).card ≤ 2 then
        "3-6 months"
      else if (oss.essential.toFinset \ userSkillURIs sm).card ≤ 4 then "6-12 months"
      else "1-2 years") := by
  simp only [buildOpportunity] at h
  by_cases hc : 1 ≤ (userSkillURIs sm ∩ oss.essential.toFinset).card ∧
      (oss.essential.toFinset \ userSkillURIs sm).card ≤ 5
  · rw [if_pos hc] at h
    have ho := (Option.some.inj h).symm
    subst ho
    exact ⟨hc, rfl, rfl, rfl, rfl, rfl, rfl, rfl, rfl⟩
  · rw [if_neg hc] at h
    exact absurd h (by simp)

/-! ## Claim theorems -/

/-- C2: every JobMatch emitted by the job matcher has a non-empty
intersection between the user's skill set and the occupation's
essential-skill set, and an occupation with empty essential overlap is
excluded entirely — no matter how many optional skills overlap. -/
theorem C2_essential_gate (occ_skills : List (String × OccSkills))
    (occ_data : String → Option OccData) (skill_data : String → Option String)
    (sm : List SkillMatch) (hnd : (occ_skills.map Prod.fst).Nodup) :
    (∀ j ∈ find_job_matches occ_skills occ_data skill_data sm,
      ∃ p ∈ occ_skills, j.uri = p.1 ∧
        (userSkillURIs sm ∩ p.2.essential.toFinset).Nonempty) ∧
    ∀ p ∈ occ_skills, userSkillURIs sm ∩ p.2.essential.toFinset = ∅ →
      ∀ j ∈ find_job_matches occ_skills occ_data skill_data sm, j.uri ≠ p.1 := by
  constructor
  · intro j hj
    rcases mem_find_job_matches.mp hj with ⟨p, hp, he⟩
    rcases buildJobMatch_inv he with ⟨hpos, huri, _⟩
    exact ⟨p, hp, huri, Finset.card_pos.mp hpos⟩
  · intro p hp hemp j hj heq
    rcases mem_find_job_matches.mp hj with ⟨q, hq, he⟩
    rcases buildJobMatch_inv he with ⟨hpos, huri, _⟩
    have hpq : q = p := List.inj_on_of_nodup_map hnd hq hp (by rw [← huri, heq])
    subst hpq
    rw [hemp] at hpos
    simp at hpos

/-- C2 witness: the essential gate evaluated on a concrete store where
O2 has only optional overlap with the user's skills. -/
theorem C2_essential_gate_witness :
    (∀ j ∈ find_job_matches occC2 (fun _ => none) (fun _ => none) smC2,
      ∃ p ∈ occC2, j.uri = p.1 ∧
        (userSkillURIs smC2 ∩ p.2.essential.toFinset).Nonempty) ∧
    ∀ p ∈ occC2, userSkillURIs smC2 ∩ p.2.essential.toFinset = ∅ →
      ∀ j ∈ find_job_matches occC2 (fun _ => none) (fun _ => none) smC2, j.uri ≠ p.1 :=
  C2_essential_gate occC2 (fun _ => none) (fun _ => none) smC2 (by decide)

/-- C3: every emitted JobMatch's score is 0.7 times the essential
coverage plus 0.3 times the optional coverage, coverages being
intersection size over set size (0 when the set is empty — division
by zero is zero in `ℚ`, matching the code's explicit guard). -/
theorem C3_match_score_formula (occ_skills : List (String × OccSkills))
    (occ_data : String → Option OccData) (skill_data : String → Option String)
    (sm : List SkillMatch) (j : JobMatch)
    (hj : j ∈ find_job_matches occ_skills occ_data skill_data sm) :
    ∃ p ∈ occ_skills, j.uri = p.1 ∧
      j.match_score =
        7 / 10 * (((userSkillURIs sm ∩ p.2.essential.toFinset).card : ℚ) /
          (p.2.essential.toFinset.card : ℚ)) +
        3 / 10 * (((userSkillURIs sm ∩ p.2.optional.toFinset).card : ℚ) /
          (p.2.optional.toFinset.card : ℚ)) := by
  rcases mem_find_job_matches.mp hj with ⟨p, hp, he⟩
  rcases buildJobMatch_inv he with ⟨_, huri, hscore, _⟩
  refine ⟨p, hp, huri, ?_⟩
  rw [hscore]
  have hess : essCovQ sm p.2 = ((userSkillURIs sm ∩ p.2.essential.toFinset).card : ℚ) /
      (p.2.essential.toFinset.card : ℚ) := by
    rw [essCovQ]
    by_cases h : p.2.essential.toFinset.card = 0
    · rw [if_pos h, h]
      simp
    · rw [if_neg h]
  have hopt : optCovQ sm p.2 = ((userSkillURIs sm ∩ p.2.optional.toFinset).card : ℚ) /
      (p.2.optional.toFinset.card : ℚ) := by
    rw [optCovQ]
    by_cases h : p.2.optional.toFinset.card = 0
    · rw [if_pos h, h]
      simp
    · rw [if_neg h]
  rw [hess, hopt]
  ring

/-- C3 witness: the score formula evaluated on a concrete store (one
of two essential skills held, the single optional skill held:
0.7·(1/2) + 0.3·1 = 13/20). -/
theorem C3_match_score_formula_witness :
    ∃ p ∈ occC3, jmC3.uri = p.1 ∧
      jmC3.match_score =
        7 / 10 * (((userSkillURIs smC3 ∩ p.2.essential.toFinset).card : ℚ) /
          (p.2.essential.toFinset.card : ℚ)) +
        3 / 10 * (((userSkillURIs smC3 ∩ p.2.optional.toFinset).card : ℚ) /
          (p.2.optional.toFinset.card : ℚ)) :=
  C3_match_score_formula occC3 (fun _ => none) (fun _ => none) smC3 jmC3 (by with_unfolding_all decide)

/-- C4: every emitted career opportunity has at least one matched
essential skill, at most five missing essential skills, and its effort
level and time estimate are banded on the number of missing essential
skills (at most 2 → low / 3-6 months; 3 or 4 → medium / 6-12 months;
5 or more → high / 1-2 years); "high" therefore occurs only at exactly
five missing skills. -/
theorem C4_effort_banding (occ_skills : List (String × OccSkills))
    (occ_data : String → Option OccData) (skill_data : String → Option String)
    (skill_categories : String → List String) (sm : List SkillMatch) (o : CareerOpportunity)
    (ho : o ∈ predict_career_opportunities occ_skills occ_data skill_data skill_categories sm) :
    ∃ p ∈ occ_skills, o.job.uri = p.1 ∧
      1 ≤ (userSkillURIs sm ∩ p.2.essential.toFinset).card ∧
      (p.2.essential.toFinset \ userSkillURIs sm).card ≤ 5 ∧
      ((p.2.essential.toFinset \ userSkillURIs sm).card ≤ 2 →
        o.effort_level = "low" ∧ o.estimated_time = "3-6 months") ∧
      (3 ≤ (p.2.essential.toFinset \ userSkillURIs sm).card →
        (p.2.essential.toFinset \ userSkillURIs sm).card ≤ 4 →
        o.effort_level = "medium" ∧ o.estimated_time = "6-12 months") ∧
      (5 ≤ (p.2.essential.toFinset \ userSkillURIs sm).card →
        o.effort_level = "high" ∧ o.estimated_time = "1-2 years") ∧
      (o.effort_level = "high" → (p.2.essential.toFinset \ userSkillURIs sm).card = 5) := by
  rcases mem_predict_career_opportunities.mp ho with ⟨p, hp, he⟩
  rcases buildOpportunity_inv he with ⟨⟨hc1, hc5⟩, huri, _, _, _, _, _, heff, htime⟩
  refine ⟨p, hp, huri, hc1, hc5, ?_, ?_, ?_, ?_⟩
  · intro h2
    rw [heff, htime, if_pos h2, if_pos h2]
    exact ⟨rfl, rfl⟩
  · intro h3 h4
    have hn2 : ¬ (p.2.essential.toFinset \ userSkillURIs sm).card ≤ 2 := by omega
    rw [heff, htime, if_neg hn2, if_neg hn2, if_pos h4, if_pos h4]
    exact ⟨rfl, rfl⟩
  · intro h5
    have hn2 : ¬ (p.2.essential.toFinset \ userSkillURIs sm).card ≤ 2 := by omega
    have hn4 : ¬ (p.2.essential.toFinset \ userSkillURIs sm).card ≤ 4 := by omega
    rw [heff, htime, if_neg hn2, if_neg hn2, if_neg hn4, if_neg hn4]
    exact ⟨rfl, rfl⟩
  · intro hhigh
    by_cases h2 : (p.2.essential.toFinset \ userSkillURIs sm).card ≤ 2
    · rw [heff, if_pos h2] at hhigh
      exact absurd hhigh (by decide)
    · by_cases h4 : (p.2.essential.toFinset \ userSkillURIs sm).card ≤ 4
      · rw [heff, if_neg h2, if_pos h4] at hhigh
        exact absurd hhigh (by decide)
      · omega

/-- C4 witness: six essential skills, one held, five missing — the
emitted opportunity is banded "high" / "1-2 years", at the ≤ 5 cap. -/
theorem C4_effort_banding_witness :
    ∃ p ∈ occC4, oppC4.job.uri = p.1 ∧
      1 ≤ (userSkillURIs smC4 ∩ p.2.essential.toFinset).card ∧
      (p.2.essential.toFinset \ userSkillURIs smC4).card ≤ 5 ∧
      ((p.2.essential.toFinset \ userSkillURIs smC4).card ≤ 2 →
        oppC4.effort_level = "low" ∧ oppC4.estimated_time = "3-6 months") ∧
      (3 ≤ (p.2.essential.toFinset \ userSkillURIs smC4).card →
        (p.2.essential.toFinset \ userSkillURIs smC4).card ≤ 4 →
        oppC4.effort_level = "medium" ∧ oppC4.estimated_time = "6-12 months") ∧
      (5 ≤ (p.2.essential.toFinset \ userSkillURIs smC4).card →
        oppC4.effort_level = "high" ∧ oppC4.estimated_time = "1-2 years") ∧
      (oppC4.effort_level = "high" →
        (p.2.essential.toFinset \ userSkillURIs smC4).card = 5) :=
  C4_effort_banding occC4 (fun _ => none) (fun _ => none) (fun _ => []) smC4 oppC4
    (by with_unfolding_all decide)

/-- C5: the opportunity predictor's output is sorted lexicographically,
ascending count of skills to gain first, then descending match score
(the opportunity's current coverage): an opportunity needing strictly
fewer skills always precedes one needing more, and among equal counts
the higher coverage precedes. -/
theorem C5_opportunity_ranking (occ_skills : List (String × OccSkills))
    (occ_data : String → Option OccData) (skill_data : String → Option String)
    (skill_categories : String → List String) (sm : List SkillMatch) :
    (predict_career_opportunities occ_skills occ_data skill_data skill_categories sm).Pairwise
      (fun a b => a.skills_to_gain.length < b.skills_to_gain.length ∨
        (a.skills_to_gain.length = b.skills_to_gain.length ∧
          b.job.match_score ≤ a.job.match_score)) := by
  have h := pairwise_sortByStable oppLt_asym oppLt_trans
    (occ_skills.filterMap
      (fun p => buildOpportunity occ_data skill_data skill_categories sm p.1 p.2))
  refine List.Pairwise.imp ?_ h
  intro a b hab
  have h2 : ¬(b.skills_to_gain.length < a.skills_to_gain.length ∨
      (b.skills_to_gain.length = a.skills_to_gain.length ∧
        a.job.match_score < b.job.match_score)) := by
    intro hh
    rw [Bool.eq_false_iff] at hab
    exact hab ((oppLt_iff b a).mpr hh)
  push_neg at h2
  rcases h2 with ⟨hlen, hsc⟩
  rcases lt_or_eq_of_le hlen with hlt | heq
  · exact Or.inl hlt
  · exact Or.inr ⟨heq, hsc heq.symm⟩

/-- C10 (implicit): every emitted opportunity ignores optional skills
entirely — empty missing-optional list, optional coverage 0, and a
match score equal to the essential coverage alone, for every input
skill set (including ones overlapping the occupation's optional
skills). -/
theorem C10_opportunities_ignore_optional (occ_skills : List (String × OccSkills))
    (occ_data : String → Option OccData) (skill_data : String → Option String)
    (skill_categories : String → List String) (sm : List SkillMatch) (o : CareerOpportunity)
    (ho : o ∈ predict_career_opportunities occ_skills occ_data skill_data skill_categories sm) :
    o.job.missing_optional = [] ∧ o.job.cov_optional = 0 ∧
    o.job.match_score = o.job.cov_essential ∧
    ∃ p ∈ occ_skills, o.job.uri = p.1 ∧
      o.job.match_score = ((userSkillURIs sm ∩ p.2.essential.toFinset).card : ℚ) /
        (p.2.essential.toFinset.card : ℚ) := by
  rcases mem_predict_career_opportunities.mp ho with ⟨p, hp, he⟩
  rcases buildOpportunity_inv he with ⟨_, huri, hms, hmo, hce, hco, _⟩
  refine ⟨hmo, hco, by rw [hms, hce], p, hp, huri, ?_⟩
  rw [hms]
  rfl

/-- C10 witness: the user's skills overlap O1's optional skill S3, yet
the emitted opportunity has empty missing-optional list, optional
coverage 0 and score 1/2 — the essential coverage alone. -/
theorem C10_opportunities_ignore_optional_witness :
    oppC10.job.missing_optional = [] ∧ oppC10.job.cov_optional = 0 ∧
    oppC10.job.match_score = oppC10.job.cov_essential ∧
    ∃ p ∈ occC3, oppC10.job.uri = p.1 ∧
      oppC10.job.match_score = ((userSkillURIs smC3 ∩ p.2.essential.toFinset).card : ℚ) /
        (p.2.essential.toFinset.card : ℚ) :=
  C10_opportunities_ignore_optional occC3 (fun _ => none) (fun _ => none) (fun _ => []) smC3
    oppC10 (by with_unfolding_all decide)

/-- C7 (amended): the tokenizer's final stage deduplicates the raw
candidate phrases keeping first occurrences in order (the result is a
duplicate-free sublist of the raw list with the same members) and caps
the output at 100, so the output length is the minimum of 100 and the
number of *distinct* raw phrases — an input with more than 100
distinct raw phrases yields exactly 100, but duplicated raw phrases
collapse first, so more than 100 *raw* phrases alone do not. -/
theorem C7_dedup_cap (raw : List String) :
    capTokens raw = (dedupFirst raw).take 100 ∧
    (dedupFirst raw).Nodup ∧
    List.Sublist (dedupFirst raw) raw ∧
    (∀ x, x ∈ dedupFirst raw ↔ x ∈ raw) ∧
    (capTokens raw).length = min 100 (dedupFirst raw).length := by
  refine ⟨rfl, (dedupFirstGo_nodup raw []).1, dedupFirstGo_sublist raw [], ?_, ?_⟩
  · intro x
    rw [dedupFirst, mem_dedupFirstGo]
    simp
  · rw [capTokens, List.length_take]

/-- C7 counterexample: 101 copies of one phrase are more than 100 raw
candidate phrases, yet the tokenizer's dedup/cap stage outputs a
single phrase, not 100. -/
theorem C7_counterexample :
    (List.replicate 101 "abc").length = 101 ∧
    100 < (List.replicate 101 "abc").length ∧
    capTokens (List.replicate 101 "abc") = ["abc"] ∧
    (capTokens (List.replicate 101 "abc")).length = 1 := by
  decide

/-- C8 (amended): the relationship loader appends every row in file
order: an occupation's essential list is exactly the skills of its
essential rows in file order, likewise optional, and an occupation is
present iff some row mentions it.  Duplicate (occupation, skill) rows
with conflicting kinds are therefore all kept — the pair appears under
both kinds; the result is deterministic, but there is no
last-write-wins. -/
theorem C8_relationship_graph (rows : List RelRow) (occ : String) :
    findA occ (load_esco_relationships rows) =
      if rows.any (fun r => decide (r.occupationUri = occ)) then
        some ⟨essRows occ rows, optRows occ rows⟩
      else none := by
  simp only [load_esco_relationships]
  rw [findA_load_fold rows [] occ]
  rfl

/-- C8 counterexample: the same (occupation, skill) pair once
essential and once optional — the loaded graph records the skill in
*both* lists, instead of keeping only the last row's kind. -/
theorem C8_counterexample :
    load_esco_relationships rowsC8 = [("O1", ⟨["S1"], ["S1"]⟩)] ∧
    "S1" ∈ (⟨["S1"], ["S1"]⟩ : OccSkills).essential ∧
    "S1" ∈ (⟨["S1"], ["S1"]⟩ : OccSkills).optional := by
  decide

/-- C9 (amended): when every skill row's preferred label carries no
surrounding whitespace and the concept URIs are unique, resolving a
JobMatch's matched-skill identifiers through the taxonomy store yields
exactly the display names in its matched-skills list (the names that
came from the embedding-index label array).  The whitespace condition
is needed because the label array stores the *stripped* preferred
label while the store keeps the raw one. -/
theorem C9_round_trip (rows : List SkillRow) (occ_skills : List (String × OccSkills))
    (occ_data : String → Option OccData) (sm : List SkillMatch)
    (hclean : ∀ r ∈ rows, r.preferredLabel.trim = r.preferredLabel)
    (hnd : (rows.map SkillRow.conceptUri).Nodup)
    (hsm : ∀ s ∈ sm, ∃ p ∈ embLabels rows, s.name = p.1 ∧ s.uri = p.2) :
    (∀ s ∈ sm, skillStore rows s.uri = some s.name) ∧
    ∀ j ∈ find_job_matches occ_skills occ_data (skillStore rows) sm,
      ∃ p ∈ occ_skills, j.uri = p.1 ∧
        j.matched_skills.map some =
          (sm.filter (fun s => decide (s.uri ∈
            (userSkillURIs sm ∩ p.2.essential.toFinset) ∪
              (userSkillURIs sm ∩ p.2.optional.toFinset)))).map
            (fun s => skillStore rows s.uri) := by
  have hcore : ∀ s ∈ sm, skillStore rows s.uri = some s.name := fun s hs =>
    skillStore_of_clean rows hclean hnd (hsm s hs)
  refine ⟨hcore, ?_⟩
  intro j hj
  rcases mem_find_job_matches.mp hj with ⟨p, hp, he⟩
  rcases buildJobMatch_inv he with ⟨_, huri, _, hms, _⟩
  refine ⟨p, hp, huri, ?_⟩
  rw [hms, List.map_map]
  refine List.map_congr_left ?_
  intro s hs
  exact (hcore s (List.mem_of_mem_filter hs)).symm

/-- C9 witness: a clean single-row taxonomy; the matched name
"Python" round-trips through the store. -/
theorem C9_round_trip_witness :
    (∀ s ∈ smC9, skillStore rowsC9w s.uri = some s.name) ∧
    ∀ j ∈ find_job_matches occC9 (fun _ => none) (skillStore rowsC9w) smC9,
      ∃ p ∈ occC9, j.uri = p.1 ∧
        j.matched_skills.map some =
          (smC9.filter (fun s => decide (s.uri ∈
            (userSkillURIs smC9 ∩ p.2.essential.toFinset) ∪
              (userSkillURIs smC9 ∩ p.2.optional.toFinset)))).map
            (fun s => skillStore rowsC9w s.uri) :=
  C9_round_trip rowsC9w occC9 (fun _ => none) smC9 (by with_unfolding_all decide) (by decide)
    (by with_unfolding_all decide)

/-- C9 counterexample: the CSV row's preferred label is " Python "
(padded).  The embedding-index label — and hence the JobMatch's
matched-skills entry — is the stripped "Python", but resolving the
identifier U1 through the store yields the raw " Python ", so the
round trip fails on this input. -/
theorem C9_counterexample :
    embLabels rowsC9 = [("Python", "U1")] ∧
    find_job_matches occC9 (fun _ => none) (skillStore rowsC9) smC9 =
      [{ uri := "O1", name := "Unknown", isco_group := "", description := ""
       , match_score := 7 / 10, matched_skills := ["Python"]
       , missing_essential := [], missing_optional := []
       , cov_essential := 1, cov_optional := 0 }] ∧
    skillStore rowsC9 "U1" = some " Python " ∧
    " Python " ≠ "Python" := by
  with_unfolding_all decide

/-- C1 (amended): for every taxonomy entry `k`, the match dict of
`extract_skills` (and of the textually identical
`extract_occupations`) holds a record for `k` iff some token's
similarity strictly exceeds the threshold (equality excluded); each
entry appears at most once; the record carries the entry's label and
URL, its similarity field is the *highest* similarity over all tokens
rounded to three decimals, and its matched-token text comes from a
token whose similarity rounds to the same three-decimal value as the
highest — not necessarily from the token achieving the exact highest
similarity, because the code compares each raw score against the
stored *rounded* score. -/
theorem C1_best_match_records (E : ExtractorData) (k : ℕ) (hk : k < E.numSkills) :
    ((∃ r, findA k (skillMatches E) = some r) ↔
      ∃ i < E.tokens.length, E.threshold < E.sims i k) ∧
    ((skillMatches E).map Prod.fst).Nodup ∧
    (∀ i < E.tokens.length, E.threshold < E.sims i k →
      E.sims i k ≤ bestSim E k E.tokens.length) ∧
    ∀ r, findA k (skillMatches E) = some r →
      r.name = E.labels k ∧ r.uri = E.urls k ∧
      r.similarity = round3 (bestSim E k E.tokens.length) ∧
      ∃ i < E.tokens.length, E.threshold < E.sims i k ∧
        r.matched_token = E.tokens.getD i "" ∧
        round3 (E.sims i k) = round3 (bestSim E k E.tokens.length) := by
  refine ⟨?_, nodup_keys_skillMatches E, bestSim_ub E k E.tokens.length, ?_⟩
  · rw [findA_skillMatches E hk]
    cases htr : traceK E k E.tokens.length with
    | none =>
      constructor
      · rintro ⟨r, hr⟩
        exact absurd hr (by simp)
      · rintro ⟨i, hi, hcond⟩
        exact absurd hcond ((traceK_eq_none_iff E k E.tokens.length).mp htr i hi)
    | some r =>
      constructor
      · intro _
        by_contra hno
        have h0 : traceK E k E.tokens.length = none :=
          (traceK_eq_none_iff E k E.tokens.length).mpr (fun i hi hcond => hno ⟨i, hi, hcond⟩)
        rw [htr] at h0
        exact Option.noConfusion h0
      · intro _
        exact ⟨r, rfl⟩
  · intro r hr
    rw [findA_skillMatches E hk] at hr
    exact traceK_some_spec E k E.tokens.length r hr

/-- C1 witness: one entry, one token scoring 0.75 against threshold
0.5 — the record exists, is unique and carries round3(0.75) with the
matching token. -/
theorem C1_best_match_records_witness :
    ((∃ r, findA 0 (skillMatches witC1) = some r) ↔
      ∃ i < witC1.tokens.length, witC1.threshold < witC1.sims i 0) ∧
    ((skillMatches witC1).map Prod.fst).Nodup ∧
    (∀ i < witC1.tokens.length, witC1.threshold < witC1.sims i 0 →
      witC1.sims i 0 ≤ bestSim witC1 0 witC1.tokens.length) ∧
    ∀ r, findA 0 (skillMatches witC1) = some r →
      r.name = witC1.labels 0 ∧ r.uri = witC1.urls 0 ∧
      r.similarity = round3 (bestSim witC1 0 witC1.tokens.length) ∧
      ∃ i < witC1.tokens.length, witC1.threshold < witC1.sims i 0 ∧
        r.matched_token = witC1.tokens.getD i "" ∧
        round3 (witC1.sims i 0) = round3 (bestSim witC1 0 witC1.tokens.length) :=
  C1_best_match_records witC1 0 (by decide)

/-- C1 counterexample: token 0 scores 0.8504 (the unique highest),
token 1 scores 0.8501.  Both round-compare equal against the stored
0.850, so the emitted record carries token 1's text, not token 0's,
and its similarity 0.850 is not the raw highest similarity — refuting
the claim that the record carries the single highest similarity with
the matched-token of the phrase achieving it. -/
theorem C1_counterexample :
    extract_skills cexC1 10 =
      [{ name := "S0", uri := "U0", similarity := 17 / 20, matched_token := "t1" }] ∧
    cexC1.sims 1 0 < cexC1.sims 0 0 ∧
    cexC1.tokens.getD 0 "" = "t0" ∧
    "t1" ≠ "t0" ∧
    (17 : ℚ) / 20 ≠ cexC1.sims 0 0 := by
  with_unfolding_all decide

/-- C6 (amended): `extract_skills` sorts the surviving candidates by
similarity descending with a stable sort and truncates to
`max_results`; ties are broken by the order in which entries were
first inserted into the match dict (first matching token, then
taxonomy index within that token) — not by taxonomy load order across
different tokens.  Stated via the position-tagged candidate list: the
output is the tagged sort with tags erased, the tagged sort is
pairwise ordered by descending similarity, equal similarities keep
ascending insertion positions, and the output length is capped. -/
theorem C6_sort_truncate (E : ExtractorData) (m : ℕ) :
    extract_skills E m =
      ((sortByStable simLtIdx (withIdx ((skillMatches E).map Prod.snd) 0)).map Prod.snd).take m ∧
    (sortByStable simLtIdx (withIdx ((skillMatches E).map Prod.snd) 0)).Pairwise
      (fun a b => b.2.similarity ≤ a.2.similarity ∧
        (a.2.similarity = b.2.similarity → a.1 < b.1)) ∧
    (extract_skills E m).length ≤ m := by
  refine ⟨?_, ?_, ?_⟩
  · have h := sortByStable_map_snd simLt ((skillMatches E).map Prod.snd)
    exact congrArg (List.take m) h.symm
  · have h := pairwise_sortByStable_withIdx simLt_asym simLt_trans simLt_neg
      ((skillMatches E).map Prod.snd)
    refine List.Pairwise.imp ?_ h
    intro a b hab
    rcases hab with ⟨h1, h2⟩
    constructor
    · rw [simLt, decide_eq_false_iff_not] at h1
      exact le_of_not_lt h1
    · intro heq
      apply h2
      rw [simLt, decide_eq_false_iff_not, heq]
      exact lt_irrefl _
  · exact List.length_take_le m _

/-- C6 counterexample: two entries tie at similarity 0.7; entry 1 was
matched by the earlier token and so precedes entry 0 in the output —
the tie is broken by first-insertion order, not taxonomy load order
(which would put entry 0 first). -/
theorem C6_counterexample :
    extract_skills cexC6 10 =
      [{ name := "L1", uri := "U1", similarity := 7 / 10, matched_token := "t0" },
       { name := "L0", uri := "U0", similarity := 7 / 10, matched_token := "t1" }] ∧
    (extract_skills cexC6 10).map MatchRec.similarity = [7 / 10, 7 / 10] ∧
    (extract_skills cexC6 10).map MatchRec.uri = ["U1", "U0"] ∧
    cexC6.urls 0 = "U0" ∧ cexC6.urls 1 = "U1" := by
  with_unfolding_all decide
